import Mathlib

/-! Positivity Tracker: counter store and option picker.

A shallow embedding of `positivitytracker.go`.

* Go strings and `[]byte` values are byte sequences (`GoString`).
* Go's `int` is a two's-complement integer of `w` bits (`w = 32` or `w = 64`,
  the constant `strconv.IntSize`); values are carried as `Int` and every
  operation that can overflow is wrapped explicitly with `wrapInt`.
* The `diskv` handle `db` is an explicit state: the content of the key files
  under the base directory, a map from keys to byte sequences.  `Read` fails
  exactly on an absent key.  The outcome of each `Write` is an explicit
  argument: success, a failure before the key file is opened (nothing is
  touched), or a failure after it has been opened in place with truncation
  (the file is removed, the prior value is lost).
* `strconv.Itoa` / `strconv.Atoi` follow the Go standard library
  (`FormatInt`, `ParseInt`, `ParseUint` for base 10).
* `rand.Intn` is driven by an explicit draw `r`.
-/

namespace PositivityTracker

/-! ## Bytes, strings, Go integers -/

abbrev Byte := Fin 256

/-- A Go `string` / `[]byte`: a sequence of bytes. -/
abbrev GoString := List Byte

/-- Smallest value of a `w`-bit Go `int`. -/
def minInt (w : Nat) : Int := -((2 : Int) ^ (w - 1))

/-- Largest value of a `w`-bit Go `int`. -/
def maxInt (w : Nat) : Int := (2 : Int) ^ (w - 1) - 1

/-- Two's-complement reduction of a mathematical integer to `w` signed bits. -/
def wrapInt (w : Nat) (x : Int) : Int :=
  (x + (2 : Int) ^ (w - 1)) % (2 : Int) ^ w - (2 : Int) ^ (w - 1)

/-- Conversion `uint64(x)` of a signed integer. -/
def toUint64 (x : Int) : Nat := (x % (2 : Int) ^ 64).toNat

def maxUint64 : Nat := 2 ^ 64 - 1

/-! ## strconv -/

/-- The two sentinel errors of `strconv.NumError`. -/
inductive NumError where
  | ErrSyntax
  | ErrRange
  deriving DecidableEq, Repr

/-- The byte `'0' + d` for a digit value `d`. -/
def digitByte (d : Nat) : Byte := Fin.ofNat (48 + d)

/-- The digit loop of `formatBits` in base 10, one decimal digit per step, most
significant digit first in the result, writing the buffer from its end:
`for u >= 10 { i--; a[i] = '0' + u%10; u /= 10 }; i--; a[i] = '0' + u`.
The first argument is the room left in the buffer. -/
def formatDigits : Nat → Nat → GoString → GoString
  | 0, _, acc => acc
  | room + 1, u, acc =>
    if u ≥ 10 then formatDigits room (u / 10) (digitByte (u % 10) :: acc)
    else digitByte u :: acc

/-- `formatBits(nil, u, 10, neg, false)`: the buffer `a` has 64 + 1 bytes; a negative
value is negated in `uint64` and gets a leading `'-'`. -/
def formatBits (u : Nat) (neg : Bool) : GoString :=
  let u := if neg then (2 ^ 64 - u) % 2 ^ 64 else u
  let ds := formatDigits 65 u []
  if neg then (45 : Byte) :: ds else ds

/-- `strconv.FormatInt(i, 10)`. -/
def FormatInt (i : Int) : GoString := formatBits (toUint64 i) (decide (i < 0))

/-- `strconv.Itoa(i) = FormatInt(int64(i), 10)`. -/
def Itoa (i : Int) : GoString := FormatInt (wrapInt 64 i)

/-- `lower(c) = c | ('x' - 'X')`. -/
def lower (c : Nat) : Nat := c ||| 32

/-- The value of a byte as a digit in `ParseUint`, `none` for the `default` case. -/
def digitVal (c : Nat) : Option Nat :=
  if 48 ≤ c ∧ c ≤ 57 then some (c - 48)
  else if 97 ≤ lower c ∧ lower c ≤ 122 then some (lower c - 97 + 10)
  else none

/-- The loop of `strconv.ParseUint(s, 10, bitSize)` over the bytes of `s`, with
`cutoff = maxUint64/10 + 1`; `n` is a `uint64`. -/
def parseUintLoop (maxVal : Nat) : GoString → Nat → Nat × Option NumError
  | [], n => (n, none)
  | c :: cs, n =>
    match digitVal c.val with
    | none => (0, some NumError.ErrSyntax)
    | some d =>
      if d ≥ 10 then (0, some NumError.ErrSyntax)
      else if n ≥ maxUint64 / 10 + 1 then (maxVal, some NumError.ErrRange)
      else
        let n10 := n * 10 % 2 ^ 64
        let n1 := (n10 + d) % 2 ^ 64
        if n1 < n10 ∨ n1 > maxVal then (maxVal, some NumError.ErrRange)
        else parseUintLoop maxVal cs n1

/-- `strconv.ParseUint(s, 10, 0)` where `IntSize = w`. -/
def ParseUint (w : Nat) (s : GoString) : Nat × Option NumError :=
  if s = [] then (0, some NumError.ErrSyntax)
  else
    let maxVal := (2 ^ w % 2 ^ 64 + 2 ^ 64 - 1) % 2 ^ 64
    parseUintLoop maxVal s 0

/-- `strconv.ParseInt(s, 10, 0)` where `IntSize = w`; the result is an `int64`. -/
def ParseInt (w : Nat) (s : GoString) : Int × Option NumError :=
  match s with
  | [] => (0, some NumError.ErrSyntax)
  | c :: t =>
    let neg : Bool := decide (c = 45)
    let s1 : GoString := if c = 43 then t else if c = 45 then t else s
    let r := ParseUint w s1
    if r.2 = some NumError.ErrSyntax then (0, some NumError.ErrSyntax)
    else
      let un := r.1
      let cutoff : Nat := 2 ^ (w - 1)
      if neg = false ∧ un ≥ cutoff then (wrapInt 64 ((cutoff : Int) - 1), some NumError.ErrRange)
      else if neg = true ∧ un > cutoff then
        (wrapInt 64 (-(wrapInt 64 (cutoff : Int))), some NumError.ErrRange)
      else
        let n := wrapInt 64 (un : Int)
        (if neg then wrapInt 64 (-n) else n, none)

/-- The fast-path loop of `strconv.Atoi`:
`for _, ch := range []byte(s) { ch -= '0'; if ch > 9 { syntax error }; n = n*10 + int(ch) }`.
`none` stands for the syntax error. -/
def atoiLoop (w : Nat) : GoString → Int → Option Int
  | [], n => some n
  | c :: cs, n =>
    let ch := (c.val + 256 - 48) % 256
    if ch > 9 then none
    else atoiLoop w cs (wrapInt w (wrapInt w (n * 10) + (ch : Int)))

/-- `strconv.Atoi(s)` where `intSize = w`: value and error (`none` is `nil`). -/
def Atoi (w : Nat) (s : GoString) : Int × Option NumError :=
  let sLen := s.length
  if (w = 32 ∧ 0 < sLen ∧ sLen < 10) ∨ (w = 64 ∧ 0 < sLen ∧ sLen < 19) then
    match s with
    | [] => (0, some NumError.ErrSyntax)
    | c :: t =>
      let s1 : GoString := if c = 45 ∨ c = 43 then t else s
      if s1.length < 1 then (0, some NumError.ErrSyntax)
      else
        match atoiLoop w s1 0 with
        | none => (0, some NumError.ErrSyntax)
        | some n => (if c = 45 then wrapInt w (-n) else n, none)
  else
    let r := ParseInt w s
    (wrapInt w r.1, r.2)

/-! ## The backing store -/

def POSITIVE_KEY : String := "positive"

def NEGATIVE_KEY : String := "negative"

/-- The state of the `diskv` store `db`: the bytes of the key file of each key, `none`
where there is no file. -/
structure Diskv where
  files : String → Option GoString

/-- `db.Read(key)`: the bytes of the key file, `none` when the read returns an error
(the key is absent). -/
def Diskv.Read (db : Diskv) (key : String) : Option GoString := db.files key

/-- How a call of `db.Write` ends.  The store is opened in `main` with no `TempDir`, so
`Write` makes sure the directory exists, opens the key file in place with
`O_WRONLY|O_CREATE|O_TRUNC`, copies the bytes into it and closes it. -/
inductive WriteOutcome where
  /-- The write succeeds and `nil` is returned. -/
  | ok
  /-- The directory or the key file cannot be created or opened: an error is returned
  and nothing has been touched. -/
  | failedBeforeOpen
  /-- The key file has been opened, which truncates it, and the copy fails: the file is
  closed and removed, and an error is returned. -/
  | failedAfterOpen
  deriving DecidableEq, Repr

/-- `db.Write(key, val)`: the store afterwards and whether an error is returned.  On
success the bytes under `key` are replaced by `val`.  A write that fails before the
key file is opened leaves the store as it was; one that fails after the truncating
open leaves no file under `key`.  No other key is touched. -/
def Diskv.Write (db : Diskv) (o : WriteOutcome) (key : String) (val : GoString) :
    Diskv × Bool :=
  match o with
  | WriteOutcome.ok => (⟨fun k => if k = key then some val else db.files k⟩, false)
  | WriteOutcome.failedBeforeOpen => (db, true)
  | WriteOutcome.failedAfterOpen => (⟨fun k => if k = key then none else db.files k⟩, true)

/-- `writeValue(value, key)`: the error of `db.Write` is dropped. -/
def writeValue (o : WriteOutcome) (value : Int) (key : String) (db : Diskv) : Diskv :=
  (db.Write o key (Itoa value)).1

/-- `getPositiveCount()`; `o` is the outcome of the write made on a failed read. -/
def getPositiveCount (w : Nat) (o : WriteOutcome) (db : Diskv) : Int × Diskv :=
  match db.Read POSITIVE_KEY with
  | none => (0, writeValue o 0 POSITIVE_KEY db)
  | some value => ((Atoi w value).1, db)

/-- `getNegativeCount()`; `o` is the outcome of the write made on a failed read. -/
def getNegativeCount (w : Nat) (o : WriteOutcome) (db : Diskv) : Int × Diskv :=
  match db.Read NEGATIVE_KEY with
  | none => (0, writeValue o 0 NEGATIVE_KEY db)
  | some value => ((Atoi w value).1, db)

/-- `incrementPositiveCount()`; `o1` is the outcome of the write `getPositiveCount`
may make, `o2` the outcome of the write of the new value. -/
def incrementPositiveCount (w : Nat) (o1 o2 : WriteOutcome) (db : Diskv) : Int × Diskv :=
  let r := getPositiveCount w o1 db
  let currentValue := wrapInt w (r.1 + 1)
  (currentValue, writeValue o2 currentValue POSITIVE_KEY r.2)

/-- `incrementNegativeCount()`. -/
def incrementNegativeCount (w : Nat) (o1 o2 : WriteOutcome) (db : Diskv) : Int × Diskv :=
  let r := getNegativeCount w o1 db
  let currentValue := wrapInt w (r.1 + 1)
  (currentValue, writeValue o2 currentValue NEGATIVE_KEY r.2)

/-- `n` sequential calls of `incrementPositiveCount` with every write succeeding:
the values returned, in order, and the final store. -/
def incrementPositiveTimes (w : Nat) : Nat → Diskv → List Int × Diskv
  | 0, db => ([], db)
  | n + 1, db =>
    let r := incrementPositiveCount w .ok .ok db
    let rest := incrementPositiveTimes w n r.2
    (r.1 :: rest.1, rest.2)

/-- `n` sequential calls of `incrementNegativeCount` with every write succeeding. -/
def incrementNegativeTimes (w : Nat) : Nat → Diskv → List Int × Diskv
  | 0, db => ([], db)
  | n + 1, db =>
    let r := incrementNegativeCount w .ok .ok db
    let rest := incrementNegativeTimes w n r.2
    (r.1 :: rest.1, rest.2)

/-! ## Option picker -/

abbrev Options := List String

/-- `rand.Intn(n)`: panics (`none`) when `n <= 0`, otherwise a value of `[0, n)`,
here the draw `r` reduced into that range. -/
def Intn (r n : Nat) : Option Nat := if n = 0 then none else some (r % n)

/-- `Options.Random`: `o[rand.Intn(len(o))]`; `none` is a panic. -/
def Options.Random (o : Options) (r : Nat) : Option String :=
  match Intn r o.length with
  | none => none
  | some i => o[i]?

/-- The list assigned to `positiveOptions` by `makePositiveOptions()`. -/
def makePositiveOptions : Options :=
  [ "I said something positive!",
    "I'm freaking sunshine and rainbows!",
    "Happy happy joy joy!",
    "Joy to the world!",
    "Lovin' life!" ]

/-- The list assigned to `negativeOptions` by `makeNegativeOptions()`. -/
def makeNegativeOptions : Options :=
  [ "Whah whah",
    "I'm positively negative",
    "Leave me alone!",
    "It's the end of the world as we know it!",
    "Woe is me..." ]

/-! ## HTTP handlers -/

/-- What `ctx.String(code, body)` sends. -/
structure Response where
  code : Nat
  body : GoString
  deriving DecidableEq, Repr

def StatusOK : Nat := 200

/-- `trackPositive`. -/
def trackPositive (w : Nat) (o1 o2 : WriteOutcome) (db : Diskv) : Response × Diskv :=
  let r := incrementPositiveCount w o1 o2 db
  (⟨StatusOK, Itoa r.1⟩, r.2)

/-- `trackNegative`. -/
def trackNegative (w : Nat) (o1 o2 : WriteOutcome) (db : Diskv) : Response × Diskv :=
  let r := incrementNegativeCount w o1 o2 db
  (⟨StatusOK, Itoa r.1⟩, r.2)

/-- `getPositive`. -/
def getPositive (w : Nat) (o : WriteOutcome) (db : Diskv) : Response × Diskv :=
  let r := getPositiveCount w o db
  (⟨StatusOK, Itoa r.1⟩, r.2)

/-- `getNegative`. -/
def getNegative (w : Nat) (o : WriteOutcome) (db : Diskv) : Response × Diskv :=
  let r := getNegativeCount w o db
  (⟨StatusOK, Itoa r.1⟩, r.2)

/-- The response bodies of `getPositive, trackPositive, trackPositive, getPositive`
run in this order with every write succeeding. -/
def positiveScenario (w : Nat) (db : Diskv) : List GoString :=
  let r1 := getPositive w .ok db
  let r2 := trackPositive w .ok .ok r1.2
  let r3 := trackPositive w .ok .ok r2.2
  let r4 := getPositive w .ok r3.2
  [r1.1.body, r2.1.body, r3.1.body, r4.1.body]

/-- The response bodies of `getNegative, trackNegative, trackNegative, getNegative`
run in this order with every write succeeding. -/
def negativeScenario (w : Nat) (db : Diskv) : List GoString :=
  let r1 := getNegative w .ok db
  let r2 := trackNegative w .ok .ok r1.2
  let r3 := trackNegative w .ok .ok r2.2
  let r4 := getNegative w .ok r3.2
  [r1.1.body, r2.1.body, r3.1.body, r4.1.body]

/-- The empty store: no key has been written. -/
def emptyDb : Diskv := ⟨fun _ => none⟩

/-- A store holding `val` under `key` and nothing else. -/
def singleDb (key : String) (val : GoString) : Diskv :=
  ⟨fun k => if k = key then some val else none⟩

/-- The bytes of `"not-a-number"`. -/
def notANumber : GoString := [110, 111, 116, 45, 97, 45, 110, 117, 109, 98, 101, 114]

/-- The bytes of `"99999999999999999999"`, twenty nines. -/
def twentyNines : GoString := List.replicate 20 57

/-- The bytes of `"9223372036854775807"`, the largest 64-bit `int`. -/
def maxInt64Text : GoString :=
  [57, 50, 50, 51, 51, 55, 50, 48, 51, 54, 56, 53, 52, 55, 55, 53, 56, 48, 55]

/-! ## Auxiliary notions for the proofs -/

/-- A byte that is an ASCII decimal digit. -/
def IsDigit (c : Byte) : Prop := 48 ≤ c.val ∧ c.val ≤ 57

/-- The number that a sequence of digit bytes denotes, continuing from `n`. -/
def decVal : GoString → Nat → Nat
  | [], n => n
  | c :: cs, n => decVal cs (n * 10 + (c.val - 48))

/-- The common body of `getPositiveCount` and `getNegativeCount`. -/
def getCount (key : String) (w : Nat) (o : WriteOutcome) (db : Diskv) : Int × Diskv :=
  match db.Read key with
  | none => (0, writeValue o 0 key db)
  | some value => ((Atoi w value).1, db)

/-- The common body of `incrementPositiveCount` and `incrementNegativeCount`. -/
def incrementCount (key : String) (w : Nat) (o1 o2 : WriteOutcome) (db : Diskv) : Int × Diskv :=
  let r := getCount key w o1 db
  let currentValue := wrapInt w (r.1 + 1)
  (currentValue, writeValue o2 currentValue key r.2)

/-- The common body of `incrementPositiveTimes` and `incrementNegativeTimes`. -/
def incrementTimes (key : String) (w : Nat) : Nat → Diskv → List Int × Diskv
  | 0, db => ([], db)
  | n + 1, db =>
    let r := incrementCount key w .ok .ok db
    let rest := incrementTimes key w n r.2
    (r.1 :: rest.1, rest.2)

/-! ## Go integers -/

theorem two_pow_split {w : Nat} (hw : 1 ≤ w) : (2 : Int) ^ w = 2 * (2 : Int) ^ (w - 1) := by
  obtain ⟨k, rfl⟩ : ∃ k, w = k + 1 := ⟨w - 1, by omega⟩
  simp [pow_succ, mul_comm]

theorem wrapInt_eq_self {w : Nat} (hw : 1 ≤ w) {x : Int}
    (h1 : minInt w ≤ x) (h2 : x ≤ maxInt w) : wrapInt w x = x := by
  unfold wrapInt
  unfold minInt at h1
  unfold maxInt at h2
  rw [two_pow_split hw]
  generalize (2 : Int) ^ (w - 1) = P at *
  rw [Int.emod_eq_of_lt (by omega) (by omega)]
  omega

theorem wrapInt_range {w : Nat} (hw : 1 ≤ w) (x : Int) :
    minInt w ≤ wrapInt w x ∧ wrapInt w x ≤ maxInt w := by
  unfold wrapInt minInt maxInt
  rw [two_pow_split hw]
  have hpos : (0 : Int) < (2 : Int) ^ (w - 1) := by positivity
  generalize (2 : Int) ^ (w - 1) = P at *
  have h1 := Int.emod_nonneg (x + P) (show (2 * P) ≠ 0 by omega)
  have h2 := Int.emod_lt_of_pos (x + P) (show 0 < 2 * P by omega)
  omega

theorem minInt_le_maxInt (w : Nat) : minInt w ≤ 0 ∧ 0 ≤ maxInt w := by
  unfold minInt maxInt
  have hpos : (0 : Int) < (2 : Int) ^ (w - 1) := by positivity
  omega

/-! ## Formatting: `Itoa` -/

theorem digitByte_val {d : Nat} (h : d ≤ 9) : (digitByte d).val = 48 + d := by
  unfold digitByte
  simp only [Fin.ofNat, Fin.val_mk]
  omega

theorem digitByte_isDigit {d : Nat} (h : d ≤ 9) : IsDigit (digitByte d) := by
  unfold IsDigit
  rw [digitByte_val h]
  omega

theorem decVal_append (xs ys : GoString) (n : Nat) :
    decVal (xs ++ ys) n = decVal ys (decVal xs n) := by
  induction xs generalizing n with
  | nil => rfl
  | cons c cs ih => simp [decVal, ih]

theorem le_decVal (s : GoString) (n : Nat) : n ≤ decVal s n := by
  induction s generalizing n with
  | nil => simp [decVal]
  | cons c cs ih =>
    have := ih (n * 10 + (c.val - 48))
    simp only [decVal]
    omega

theorem decVal_lt (s : GoString) (n : Nat) (hs : ∀ c ∈ s, IsDigit c) :
    decVal s n < (n + 1) * 10 ^ s.length := by
  induction s generalizing n with
  | nil => simp [decVal]
  | cons c cs ih =>
    have hc : IsDigit c := hs c (List.mem_cons_self _ _)
    have h := ih (n * 10 + (c.val - 48)) (fun x hx => hs x (List.mem_cons_of_mem _ hx))
    simp only [decVal, List.length_cons, pow_succ]
    unfold IsDigit at hc
    have h2 : (n * 10 + (c.val - 48) + 1) * 10 ^ cs.length ≤ (n + 1) * (10 ^ cs.length * 10) := by
      have : (n + 1) * (10 ^ cs.length * 10) = ((n + 1) * 10) * 10 ^ cs.length := by ring
      rw [this]
      exact Nat.mul_le_mul_right _ (by omega)
    omega

theorem formatDigits_acc (room u : Nat) (acc : GoString) :
    formatDigits room u acc = formatDigits room u [] ++ acc := by
  induction room generalizing u acc with
  | zero => simp [formatDigits]
  | succ room ih =>
    simp only [formatDigits]
    split
    · rw [ih (u / 10) (digitByte (u % 10) :: acc), ih (u / 10) [digitByte (u % 10)]]
      simp
    · simp

theorem formatDigits_spec (room u : Nat) (hu : u < 10 ^ (room + 1)) :
    (∀ c ∈ formatDigits (room + 1) u [], IsDigit c) ∧ formatDigits (room + 1) u [] ≠ [] ∧
      ∀ n, decVal (formatDigits (room + 1) u []) n
        = n * 10 ^ (formatDigits (room + 1) u []).length + u := by
  induction room generalizing u with
  | zero =>
    have hu9 : u ≤ 9 := by omega
    have hlt : ¬ u ≥ 10 := by omega
    simp only [formatDigits, hlt, if_false]
    refine ⟨?_, by simp, ?_⟩
    · intro c hc
      simp only [List.mem_singleton] at hc
      subst hc
      exact digitByte_isDigit hu9
    · intro n
      simp [decVal, digitByte_val hu9]
  | succ room ih =>
    by_cases h10 : u ≥ 10
    · have hq : u / 10 < 10 ^ (room + 1) := by
        rw [pow_succ] at hu
        omega
      obtain ⟨ihd, ihne, ihv⟩ := ih (u / 10) hq
      have hr9 : u % 10 ≤ 9 := by omega
      have heq : formatDigits (room + 1 + 1) u []
          = formatDigits (room + 1) (u / 10) [] ++ [digitByte (u % 10)] := by
        conv_lhs => rw [formatDigits]
        simp only [h10, if_true]
        exact formatDigits_acc _ _ _
      rw [heq]
      refine ⟨?_, by simp, ?_⟩
      · intro c hc
        rcases List.mem_append.1 hc with hc | hc
        · exact ihd c hc
        · simp only [List.mem_singleton] at hc
          subst hc
          exact digitByte_isDigit hr9
      · intro n
        rw [decVal_append, ihv n]
        simp only [decVal, digitByte_val hr9, List.length_append, List.length_singleton, pow_succ]
        have : (n * 10 ^ (formatDigits (room + 1) (u / 10) []).length + u / 10) * 10
            = n * (10 ^ (formatDigits (room + 1) (u / 10) []).length * 10) + (u / 10) * 10 := by
          ring
        omega
    · have hu9 : u ≤ 9 := by omega
      have heq : formatDigits (room + 1 + 1) u [] = [digitByte u] := by
        conv_lhs => rw [formatDigits]
        simp only [h10, if_false]
      rw [heq]
      refine ⟨?_, by simp, ?_⟩
      · intro c hc
        simp only [List.mem_singleton] at hc
        subst hc
        exact digitByte_isDigit hu9
      · intro n
        simp [decVal, digitByte_val hu9]

theorem Itoa_ofNat (m : Nat) (hm : m < 2 ^ 63) : Itoa (m : Int) = formatDigits 65 m [] := by
  have hw : wrapInt 64 (m : Int) = (m : Int) := by
    apply wrapInt_eq_self (by norm_num)
    · unfold minInt; norm_num; omega
    · unfold maxInt; norm_num; omega
  have hneg : ¬ ((m : Int) < 0) := by omega
  have hu : toUint64 (m : Int) = m := by
    unfold toUint64
    rw [Int.emod_eq_of_lt (by omega) (by norm_num; omega)]
    simp
  simp [Itoa, FormatInt, formatBits, hw, hneg, hu]

theorem Itoa_negOfNat (m : Nat) (h1 : 1 ≤ m) (hm : m ≤ 2 ^ 63) :
    Itoa (-(m : Int)) = (45 : Byte) :: formatDigits 65 m [] := by
  have hw : wrapInt 64 (-(m : Int)) = -(m : Int) := by
    apply wrapInt_eq_self (by norm_num)
    · unfold minInt; norm_num; omega
    · unfold maxInt; norm_num; omega
  have hneg : (-(m : Int) < 0) := by omega
  have hu : toUint64 (-(m : Int)) = 2 ^ 64 - m := by
    unfold toUint64
    have : (-(m : Int)) % 2 ^ 64 = ((2 ^ 64 - m : Nat) : Int) := by omega
    rw [this]
    simp
  have hu2 : (2 ^ 64 - (2 ^ 64 - m)) % 2 ^ 64 = m := by omega
  simp only [Itoa, FormatInt, formatBits, hw, hneg, hu, hu2, decide_True, if_true]

theorem formatDigits65_spec (m : Nat) (hm : m ≤ 2 ^ 63) :
    (∀ c ∈ formatDigits 65 m [], IsDigit c) ∧ formatDigits 65 m [] ≠ [] ∧
      decVal (formatDigits 65 m []) 0 = m := by
  have h := formatDigits_spec 64 m (by
    have : (2 : Nat) ^ 63 < 10 ^ (64 + 1) := by norm_num
    omega)
  exact ⟨h.1, h.2.1, by simpa using h.2.2 0⟩

/-! ## Parsing: `Atoi` -/

theorem isDigit_ne_sign {c : Byte} (hc : IsDigit c) : c ≠ 45 ∧ c ≠ 43 := by
  unfold IsDigit at hc
  constructor
  · intro h
    rw [h] at hc
    revert hc
    decide
  · intro h
    rw [h] at hc
    revert hc
    decide

theorem atoiLoop_digits {w : Nat} (hw : 1 ≤ w) (s : GoString) (n : Nat)
    (hs : ∀ c ∈ s, IsDigit c) (hb : ((decVal s n : Nat) : Int) ≤ maxInt w) :
    atoiLoop w s (n : Int) = some ((decVal s n : Nat) : Int) := by
  induction s generalizing n with
  | nil => simp [atoiLoop, decVal]
  | cons c cs ih =>
    have hc := hs c (List.mem_cons_self _ _)
    unfold IsDigit at hc
    have hch : (c.val + 256 - 48) % 256 = c.val - 48 := by omega
    have h9 : ¬ (c.val - 48 > 9) := by omega
    simp only [atoiLoop, hch, h9, if_false, decVal]
    have hmono := le_decVal cs (n * 10 + (c.val - 48))
    simp only [decVal] at hb
    have hmin := (minInt_le_maxInt w).1
    have e1 : wrapInt w ((n : Int) * 10) = (n : Int) * 10 :=
      wrapInt_eq_self hw (by omega) (by omega)
    rw [e1]
    have e2 : wrapInt w ((n : Int) * 10 + ((c.val - 48 : Nat) : Int))
        = ((n * 10 + (c.val - 48) : Nat) : Int) := by
      rw [wrapInt_eq_self hw (by omega) (by omega)]
      omega
    rw [e2]
    exact ih _ (fun x hx => hs x (List.mem_cons_of_mem _ hx)) hb

theorem digitVal_digit {c : Byte} (hc : IsDigit c) : digitVal c.val = some (c.val - 48) := by
  unfold IsDigit at hc
  simp [digitVal, hc.1, hc.2]

theorem parseUintLoop_digits (maxVal : Nat) (hmax : maxVal < 2 ^ 64) (s : GoString) (n : Nat)
    (hs : ∀ c ∈ s, IsDigit c) (hb : decVal s n ≤ maxVal) :
    parseUintLoop maxVal s n = (decVal s n, none) := by
  induction s generalizing n with
  | nil => simp [parseUintLoop, decVal]
  | cons c cs ih =>
    have hc := hs c (List.mem_cons_self _ _)
    have hd := digitVal_digit hc
    unfold IsDigit at hc
    have hmono := le_decVal cs (n * 10 + (c.val - 48))
    simp only [decVal] at hb
    have h10 : ¬ (c.val - 48 ≥ 10) := by omega
    have hcut : ¬ (n ≥ maxUint64 / 10 + 1) := by
      unfold maxUint64
      norm_num at hmax ⊢
      omega
    have hn10 : n * 10 % 2 ^ 64 = n * 10 := Nat.mod_eq_of_lt (by omega)
    have hn1 : (n * 10 + (c.val - 48)) % 2 ^ 64 = n * 10 + (c.val - 48) :=
      Nat.mod_eq_of_lt (by omega)
    have hnot : ¬ (n * 10 + (c.val - 48) < n * 10 ∨ n * 10 + (c.val - 48) > maxVal) := by omega
    simp only [parseUintLoop, hd, h10, hcut, if_false, hn10, hn1, hnot, decVal]
    exact ih _ (fun x hx => hs x (List.mem_cons_of_mem _ hx)) hb

theorem maxVal_eq {w : Nat} (hw : w = 32 ∨ w = 64) :
    (2 ^ w % 2 ^ 64 + 2 ^ 64 - 1) % 2 ^ 64 = 2 ^ w - 1 := by
  rcases hw with rfl | rfl <;> norm_num

theorem ParseUint_digits {w : Nat} (hw : w = 32 ∨ w = 64) (s : GoString)
    (hs : ∀ c ∈ s, IsDigit c) (hne : s ≠ []) (hb : decVal s 0 ≤ 2 ^ w - 1) :
    ParseUint w s = (decVal s 0, none) := by
  unfold ParseUint
  simp only [hne, if_false, maxVal_eq hw]
  exact parseUintLoop_digits _ (by rcases hw with rfl | rfl <;> norm_num) s 0 hs hb

theorem Atoi_slow {w : Nat} {s : GoString}
    (h : ¬ ((w = 32 ∧ 0 < s.length ∧ s.length < 10) ∨ (w = 64 ∧ 0 < s.length ∧ s.length < 19))) :
    Atoi w s = (wrapInt w (ParseInt w s).1, (ParseInt w s).2) := by
  unfold Atoi
  simp only [h, if_false]

theorem Atoi_fast {w : Nat} {c : Byte} {t : GoString}
    (h : (w = 32 ∧ 0 < (c :: t).length ∧ (c :: t).length < 10)
      ∨ (w = 64 ∧ 0 < (c :: t).length ∧ (c :: t).length < 19)) :
    Atoi w (c :: t) =
      if (if c = 45 ∨ c = 43 then t else c :: t).length < 1 then (0, some NumError.ErrSyntax)
      else
        match atoiLoop w (if c = 45 ∨ c = 43 then t else c :: t) 0 with
        | none => (0, some NumError.ErrSyntax)
        | some n => (if c = 45 then wrapInt w (-n) else n, none) := by
  unfold Atoi
  simp only [h, if_true]

theorem Atoi_digits {w : Nat} (hw : w = 32 ∨ w = 64) (s : GoString)
    (hs : ∀ c ∈ s, IsDigit c) (hne : s ≠ []) (hb : ((decVal s 0 : Nat) : Int) ≤ maxInt w) :
    Atoi w s = (((decVal s 0 : Nat) : Int), none) := by
  have hw1 : 1 ≤ w := by omega
  obtain ⟨c, t, rfl⟩ := List.exists_cons_of_ne_nil hne
  have hc := isDigit_ne_sign (hs c (List.mem_cons_self _ _))
  by_cases hf : (w = 32 ∧ 0 < (c :: t).length ∧ (c :: t).length < 10)
      ∨ (w = 64 ∧ 0 < (c :: t).length ∧ (c :: t).length < 19)
  · have hl := atoiLoop_digits hw1 (c :: t) 0 hs hb
    simp only [Nat.cast_zero] at hl
    rw [Atoi_fast hf]
    simp [hc.1, hc.2, hl]
  · have hbN : decVal (c :: t) 0 ≤ 2 ^ w - 1 := by
      unfold maxInt at hb
      rcases hw with rfl | rfl <;> norm_num at hb ⊢ <;> omega
    have hlt : ¬ (2 ^ (w - 1) ≤ decVal (c :: t) 0) := by
      unfold maxInt at hb
      rcases hw with rfl | rfl <;> norm_num at hb ⊢ <;> omega
    have hPU := ParseUint_digits hw (c :: t) hs hne hbN
    rw [Atoi_slow hf]
    have h64 : wrapInt 64 ((decVal (c :: t) 0 : Nat) : Int) = ((decVal (c :: t) 0 : Nat) : Int) := by
      apply wrapInt_eq_self (by norm_num)
      · unfold minInt; norm_num; omega
      · unfold maxInt at hb ⊢
        rcases hw with rfl | rfl <;> norm_num at hb ⊢ <;> omega
    have hww : wrapInt w ((decVal (c :: t) 0 : Nat) : Int) = ((decVal (c :: t) 0 : Nat) : Int) := by
      apply wrapInt_eq_self hw1 _ hb
      have := (minInt_le_maxInt w).1
      omega
    simp [ParseInt, hc.1, hc.2, hPU, hlt, h64, hww]

theorem wrapInt64_neg_wrapInt64 (m : Nat) (hm : m ≤ 2 ^ 63) :
    wrapInt 64 (-(wrapInt 64 (m : Int))) = -(m : Int) := by
  by_cases h : m = 2 ^ 63
  · subst h
    norm_num [wrapInt]
  · have h1 : wrapInt 64 (m : Int) = (m : Int) := by
      apply wrapInt_eq_self (by norm_num)
      · unfold minInt; norm_num; omega
      · unfold maxInt; norm_num; omega
    rw [h1]
    apply wrapInt_eq_self (by norm_num)
    · unfold minInt; norm_num; omega
    · unfold maxInt; norm_num; omega

theorem Atoi_neg_digits {w : Nat} (hw : w = 32 ∨ w = 64) (s : GoString)
    (hs : ∀ c ∈ s, IsDigit c) (hne : s ≠ [])
    (hb : minInt w ≤ -((decVal s 0 : Nat) : Int)) :
    Atoi w ((45 : Byte) :: s) = (-((decVal s 0 : Nat) : Int), none) := by
  have hw1 : 1 ≤ w := by omega
  have hlen : ¬ (s.length < 1) := by
    cases s with
    | nil => exact absurd rfl hne
    | cons c t => simp
  have hww : wrapInt w (-((decVal s 0 : Nat) : Int)) = -((decVal s 0 : Nat) : Int) := by
    apply wrapInt_eq_self hw1 hb
    have := (minInt_le_maxInt w).2
    omega
  by_cases hf : (w = 32 ∧ 0 < ((45 : Byte) :: s).length ∧ ((45 : Byte) :: s).length < 10)
      ∨ (w = 64 ∧ 0 < ((45 : Byte) :: s).length ∧ ((45 : Byte) :: s).length < 19)
  · have hlt := decVal_lt s 0 hs
    have hmax : ((decVal s 0 : Nat) : Int) ≤ maxInt w := by
      unfold maxInt
      rcases hf with ⟨rfl, _, h2⟩ | ⟨rfl, _, h2⟩
      · have h3 : 10 ^ s.length ≤ 10 ^ 8 :=
          Nat.pow_le_pow_right (by norm_num) (by simp at h2; omega)
        norm_num at h3 ⊢
        omega
      · have h3 : 10 ^ s.length ≤ 10 ^ 17 :=
          Nat.pow_le_pow_right (by norm_num) (by simp at h2; omega)
        norm_num at h3 ⊢
        omega
    have hl := atoiLoop_digits hw1 s 0 hs hmax
    simp only [Nat.cast_zero] at hl
    rw [Atoi_fast hf]
    simp [hlen, hl, hww]
  · have hbN : decVal s 0 ≤ 2 ^ w - 1 := by
      unfold minInt at hb
      rcases hw with rfl | rfl <;> norm_num at hb ⊢ <;> omega
    have hle : ¬ (decVal s 0 > 2 ^ (w - 1)) := by
      unfold minInt at hb
      rcases hw with rfl | rfl <;> norm_num at hb ⊢ <;> omega
    have h63 : decVal s 0 ≤ 2 ^ 63 := by
      unfold minInt at hb
      rcases hw with rfl | rfl <;> norm_num at hb ⊢ <;> omega
    have hPU := ParseUint_digits hw s hs hne hbN
    rw [Atoi_slow hf]
    simp [ParseInt, hPU, hle, wrapInt64_neg_wrapInt64 _ h63, hww]

/-- Formatting then parsing gives the value back, for every value of Go's `int`. -/
theorem Atoi_Itoa {w : Nat} (hw : w = 32 ∨ w = 64) (v : Int)
    (h1 : minInt w ≤ v) (h2 : v ≤ maxInt w) : Atoi w (Itoa v) = (v, none) := by
  have hmin : (-(2 : Int) ^ 63) ≤ minInt w := by
    unfold minInt
    rcases hw with rfl | rfl <;> norm_num
  have hmax : maxInt w ≤ (2 : Int) ^ 63 - 1 := by
    unfold maxInt
    rcases hw with rfl | rfl <;> norm_num
  by_cases hv : 0 ≤ v
  · obtain ⟨m, rfl⟩ := Int.eq_ofNat_of_zero_le hv
    have hm : m < 2 ^ 63 := by omega
    obtain ⟨hd, hne, hval⟩ := formatDigits65_spec m (by omega)
    rw [Itoa_ofNat m hm, Atoi_digits hw _ hd hne (by rw [hval]; exact h2), hval]
  · obtain ⟨m, hm⟩ := Int.eq_ofNat_of_zero_le (show 0 ≤ -v by omega)
    have hvm : v = -(m : Int) := by omega
    subst hvm
    have hm1 : 1 ≤ m := by omega
    have hm63 : m ≤ 2 ^ 63 := by omega
    obtain ⟨hd, hne, hval⟩ := formatDigits65_spec m hm63
    rw [Itoa_negOfNat m hm1 hm63, Atoi_neg_digits hw _ hd hne (by rw [hval]; exact h1), hval]

theorem atoiLoop_bound {w : Nat} (hw : 1 ≤ w) (s : GoString) (n : Int) (k : Nat)
    (h0 : 0 ≤ n) (hn : n < (10 : Int) ^ k)
    (hk : (10 : Int) ^ (k + s.length) ≤ (2 : Int) ^ (w - 1))
    (m : Int) (hm : atoiLoop w s n = some m) :
    0 ≤ m ∧ m < (10 : Int) ^ (k + s.length) := by
  induction s generalizing n k with
  | nil =>
    simp only [atoiLoop, Option.some.injEq] at hm
    subst hm
    exact ⟨h0, by simpa using hn⟩
  | cons c cs ih =>
    simp only [atoiLoop] at hm
    by_cases h9 : (c.val + 256 - 48) % 256 > 9
    · rw [if_pos h9] at hm
      exact absurd hm (by simp)
    · rw [if_neg h9] at hm
      have hlen : k + (c :: cs).length = (k + 1) + cs.length := by
        simp only [List.length_cons]
        omega
      rw [hlen] at hk ⊢
      have hpk : (10 : Int) ^ (k + 1) ≤ (10 : Int) ^ (k + 1 + cs.length) :=
        pow_le_pow_right₀ (by norm_num) (by omega)
      have hsucc : (10 : Int) ^ (k + 1) = (10 : Int) ^ k * 10 := pow_succ _ _
      have hch : (((c.val + 256 - 48) % 256 : Nat) : Int) ≤ 9 := by omega
      have hch0 : (0 : Int) ≤ (((c.val + 256 - 48) % 256 : Nat) : Int) := by omega
      have hmin : minInt w = -((2 : Int) ^ (w - 1)) := rfl
      have hmax : maxInt w = (2 : Int) ^ (w - 1) - 1 := rfl
      generalize (((c.val + 256 - 48) % 256 : Nat) : Int) = ch at hm hch hch0
      have e1 : wrapInt w (n * 10) = n * 10 := wrapInt_eq_self hw (by omega) (by omega)
      have e2 : wrapInt w (n * 10 + ch) = n * 10 + ch :=
        wrapInt_eq_self hw (by omega) (by omega)
      rw [e1, e2] at hm
      exact ih (n * 10 + ch) (k + 1) (by omega) (by omega) hk hm

/-- The outcomes of `ParseInt`: a syntax error with value 0, a range error with the
nearest bound, or the signed value of an in-range magnitude. -/
theorem ParseInt_cases (w : Nat) (s : GoString) :
    ParseInt w s = (0, some NumError.ErrSyntax)
    ∨ (s.head? ≠ some 45
        ∧ ParseInt w s = (wrapInt 64 (((2 ^ (w - 1) : Nat) : Int) - 1), some NumError.ErrRange))
    ∨ (s.head? = some 45
        ∧ ParseInt w s
          = (wrapInt 64 (-(wrapInt 64 ((2 ^ (w - 1) : Nat) : Int))), some NumError.ErrRange))
    ∨ (s.head? ≠ some 45
        ∧ ∃ un : Nat, un < 2 ^ (w - 1) ∧ ParseInt w s = (wrapInt 64 (un : Int), none))
    ∨ (s.head? = some 45
        ∧ ∃ un : Nat, un ≤ 2 ^ (w - 1)
          ∧ ParseInt w s = (wrapInt 64 (-(wrapInt 64 (un : Int))), none)) := by
  cases s with
  | nil => left; rfl
  | cons c t =>
    by_cases h45 : c = 45
    · subst h45
      simp only [ParseInt]
      split_ifs <;> simp_all
      all_goals exact ⟨_, by assumption, rfl⟩
    · simp only [ParseInt]
      split_ifs <;> simp_all
      all_goals exact ⟨_, by assumption, rfl⟩

theorem clamp_max {w : Nat} (hw : w = 32 ∨ w = 64) :
    wrapInt w (wrapInt 64 (((2 ^ (w - 1) : Nat) : Int) - 1)) = maxInt w := by
  rcases hw with rfl | rfl <;> norm_num [wrapInt, maxInt]

theorem clamp_min {w : Nat} (hw : w = 32 ∨ w = 64) :
    wrapInt w (wrapInt 64 (-(wrapInt 64 ((2 ^ (w - 1) : Nat) : Int)))) = minInt w := by
  rcases hw with rfl | rfl <;> norm_num [wrapInt, minInt]

theorem wrapInt_zero {w : Nat} (hw : 1 ≤ w) : wrapInt w 0 = 0 :=
  wrapInt_eq_self hw (minInt_le_maxInt w).1 (minInt_le_maxInt w).2

theorem fast_pow_bound {w : Nat} {s : GoString}
    (hf : (w = 32 ∧ 0 < s.length ∧ s.length < 10) ∨ (w = 64 ∧ 0 < s.length ∧ s.length < 19))
    (s1 : GoString) (h1 : s1.length ≤ s.length) :
    (10 : Int) ^ (0 + s1.length) ≤ (2 : Int) ^ (w - 1) := by
  rw [Nat.zero_add]
  rcases hf with ⟨rfl, _, h2⟩ | ⟨rfl, _, h2⟩
  · calc (10 : Int) ^ s1.length ≤ (10 : Int) ^ 9 :=
          pow_le_pow_right₀ (by norm_num) (by omega)
      _ ≤ (2 : Int) ^ (32 - 1) := by norm_num
  · calc (10 : Int) ^ s1.length ≤ (10 : Int) ^ 18 :=
          pow_le_pow_right₀ (by norm_num) (by omega)
      _ ≤ (2 : Int) ^ (64 - 1) := by norm_num

/-- Every outcome of `Atoi`: a syntax error with value 0; a range error with the
bound of `int` on the side of the sign; or no error and a value of `int` whose sign
agrees with the presence of a leading `'-'`. -/
theorem Atoi_cases {w : Nat} (hw : w = 32 ∨ w = 64) (s : GoString) :
    Atoi w s = (0, some NumError.ErrSyntax)
    ∨ (s.head? ≠ some 45 ∧ Atoi w s = (maxInt w, some NumError.ErrRange))
    ∨ (s.head? = some 45 ∧ Atoi w s = (minInt w, some NumError.ErrRange))
    ∨ (s.head? ≠ some 45 ∧ ∃ v : Int, 0 ≤ v ∧ v ≤ maxInt w ∧ Atoi w s = (v, none))
    ∨ (s.head? = some 45 ∧ ∃ v : Int, minInt w ≤ v ∧ v ≤ 0 ∧ Atoi w s = (v, none)) := by
  have hw1 : 1 ≤ w := by omega
  have hmin : minInt w = -((2 : Int) ^ (w - 1)) := rfl
  have hmax : maxInt w = (2 : Int) ^ (w - 1) - 1 := rfl
  by_cases hf : (w = 32 ∧ 0 < s.length ∧ s.length < 10) ∨ (w = 64 ∧ 0 < s.length ∧ s.length < 19)
  · cases s with
    | nil => simp at hf
    | cons c t =>
      rw [Atoi_fast hf]
      by_cases hl : (if c = 45 ∨ c = 43 then t else c :: t).length < 1
      · left
        rw [if_pos hl]
      · rw [if_neg hl]
        have hlen : (if c = 45 ∨ c = 43 then t else c :: t).length ≤ (c :: t).length := by
          split_ifs <;> simp
        have hpow := fast_pow_bound hf _ hlen
        cases hA : atoiLoop w (if c = 45 ∨ c = 43 then t else c :: t) 0 with
        | none => left; rfl
        | some n =>
          have hb := atoiLoop_bound hw1 _ 0 0 (le_refl 0) (by norm_num) hpow n hA
          by_cases h45 : c = 45
          · right; right; right; right
            refine ⟨by simp [h45], -n, by omega, by omega, ?_⟩
            simp only [h45, if_true]
            rw [wrapInt_eq_self hw1 (by omega) (by omega)]
          · right; right; right; left
            refine ⟨by simpa using h45, n, by omega, by omega, ?_⟩
            simp only [h45, if_false]
  · rw [Atoi_slow hf]
    rcases ParseInt_cases w s with h | ⟨hh, h⟩ | ⟨hh, h⟩ | ⟨hh, un, hun, h⟩ | ⟨hh, un, hun, h⟩
    · left
      rw [h, wrapInt_zero hw1]
    · right; left
      rw [h, clamp_max hw]
      exact ⟨hh, rfl⟩
    · right; right; left
      rw [h, clamp_min hw]
      exact ⟨hh, rfl⟩
    · right; right; right; left
      have hcast : ((un : Nat) : Int) < (2 : Int) ^ (w - 1) := by exact_mod_cast hun
      have h63 : (2 : Int) ^ (w - 1) ≤ (2 : Int) ^ 63 := by
        rcases hw with rfl | rfl <;> norm_num
      have e64 : wrapInt 64 (un : Int) = (un : Int) := by
        apply wrapInt_eq_self (by norm_num)
        · unfold minInt; norm_num; omega
        · unfold maxInt; norm_num; omega
      refine ⟨hh, (un : Int), by omega, by omega, ?_⟩
      rw [h, e64, wrapInt_eq_self hw1 (by omega) (by omega)]
    · right; right; right; right
      have hcast : ((un : Nat) : Int) ≤ (2 : Int) ^ (w - 1) := by exact_mod_cast hun
      have h63 : (2 : Nat) ^ (w - 1) ≤ (2 : Nat) ^ 63 := by
        rcases hw with rfl | rfl <;> norm_num
      have hpos : (0 : Int) < (2 : Int) ^ (w - 1) := by positivity
      refine ⟨hh, -(un : Int), by omega, by omega, ?_⟩
      rw [h, wrapInt64_neg_wrapInt64 un (by omega), wrapInt_eq_self hw1 (by omega) (by omega)]

/-! ## The counter store -/

theorem getPositiveCount_eq (w : Nat) (o : WriteOutcome) (db : Diskv) :
    getPositiveCount w o db = getCount POSITIVE_KEY w o db := rfl

theorem getNegativeCount_eq (w : Nat) (o : WriteOutcome) (db : Diskv) :
    getNegativeCount w o db = getCount NEGATIVE_KEY w o db := rfl

theorem incrementPositiveCount_eq (w : Nat) (o1 o2 : WriteOutcome) (db : Diskv) :
    incrementPositiveCount w o1 o2 db = incrementCount POSITIVE_KEY w o1 o2 db := rfl

theorem incrementNegativeCount_eq (w : Nat) (o1 o2 : WriteOutcome) (db : Diskv) :
    incrementNegativeCount w o1 o2 db = incrementCount NEGATIVE_KEY w o1 o2 db := rfl

theorem incrementPositiveTimes_eq (w n : Nat) (db : Diskv) :
    incrementPositiveTimes w n db = incrementTimes POSITIVE_KEY w n db := by
  induction n generalizing db with
  | zero => rfl
  | succ n ih => simp only [incrementPositiveTimes, incrementTimes, ih, incrementPositiveCount_eq]

theorem incrementNegativeTimes_eq (w n : Nat) (db : Diskv) :
    incrementNegativeTimes w n db = incrementTimes NEGATIVE_KEY w n db := by
  induction n generalizing db with
  | zero => rfl
  | succ n ih => simp only [incrementNegativeTimes, incrementTimes, ih, incrementNegativeCount_eq]

theorem Read_writeValue (v : Int) (key : String) (db : Diskv) :
    (writeValue .ok v key db).Read key = some (Itoa v) := by
  simp [writeValue, Diskv.Write, Diskv.Read]

theorem getCount_absent {key : String} {db : Diskv} (h : db.Read key = none)
    (w : Nat) (o : WriteOutcome) : getCount key w o db = (0, writeValue o 0 key db) := by
  simp only [getCount, h]

theorem getCount_present {key : String} {db : Diskv} {value : GoString}
    (h : db.Read key = some value) (w : Nat) (o : WriteOutcome) :
    getCount key w o db = ((Atoi w value).1, db) := by
  simp only [getCount, h]

theorem getCount_holding {w : Nat} (hw : w = 32 ∨ w = 64) {key : String} {db : Diskv} {v : Int}
    (h : db.Read key = some (Itoa v)) (h1 : minInt w ≤ v) (h2 : v ≤ maxInt w) (o : WriteOutcome) :
    getCount key w o db = (v, db) := by
  rw [getCount_present h, Atoi_Itoa hw v h1 h2]

theorem getCount_range {w : Nat} (hw : w = 32 ∨ w = 64) (key : String) (o : WriteOutcome) (db : Diskv) :
    minInt w ≤ (getCount key w o db).1 ∧ (getCount key w o db).1 ≤ maxInt w := by
  cases h : db.Read key with
  | none =>
    rw [getCount_absent h]
    exact minInt_le_maxInt w
  | some value =>
    rw [getCount_present h]
    have hmm := minInt_le_maxInt w
    rcases Atoi_cases hw value with h | ⟨_, h⟩ | ⟨_, h⟩ | ⟨_, v, h0, h1, h⟩ | ⟨_, v, h0, h1, h⟩ <;>
      rw [h] <;> constructor <;> simp only <;> omega

theorem incrementCount_holding {w : Nat} (hw : w = 32 ∨ w = 64) {key : String} {db : Diskv}
    {v : Int} (h : db.Read key = some (Itoa v)) (h1 : minInt w ≤ v) (h2 : v + 1 ≤ maxInt w)
    (o1 o2 : WriteOutcome) :
    incrementCount key w o1 o2 db = (v + 1, writeValue o2 (v + 1) key db) := by
  have hw1 : 1 ≤ w := by omega
  simp only [incrementCount, getCount_holding hw h h1 (by omega) o1]
  rw [wrapInt_eq_self hw1 (by omega) h2]

theorem incrementCount_absent {w : Nat} (hw : w = 32 ∨ w = 64) {key : String} {db : Diskv}
    (h : db.Read key = none) (o1 o2 : WriteOutcome) :
    incrementCount key w o1 o2 db = (1, writeValue o2 1 key (writeValue o1 0 key db)) := by
  have hw1 : 1 ≤ w := by omega
  have h1 : wrapInt w ((0 : Int) + 1) = 1 := by
    apply wrapInt_eq_self hw1
    · have := (minInt_le_maxInt w).1
      omega
    · unfold maxInt
      rcases hw with rfl | rfl <;> norm_num
  simp only [incrementCount, getCount_absent h, h1]

theorem incrementTimes_holding {w : Nat} (hw : w = 32 ∨ w = 64) (key : String) (n k : Nat)
    (db : Diskv) (h : db.Read key = some (Itoa (k : Int)))
    (hk : ((k + n : Nat) : Int) ≤ maxInt w) :
    (incrementTimes key w n db).1 = (List.range n).map (fun i => ((k + i + 1 : Nat) : Int))
    ∧ (incrementTimes key w n db).2.Read key = some (Itoa ((k + n : Nat) : Int)) := by
  induction n generalizing k db with
  | zero => exact ⟨rfl, by simpa [incrementTimes] using h⟩
  | succ n ih =>
    have hmin := (minInt_le_maxInt w).1
    have hstep := incrementCount_holding hw h (by omega) (by push_cast at hk; omega) .ok .ok
    have hread : (writeValue .ok ((k : Int) + 1) key db).Read key
        = some (Itoa ((k + 1 : Nat) : Int)) := by
      rw [Read_writeValue]
      norm_num
    obtain ⟨ih1, ih2⟩ := ih (k + 1) _ hread (by
      have : k + 1 + n = k + (n + 1) := by omega
      rw [this]
      exact hk)
    simp only [incrementTimes, hstep]
    constructor
    · rw [ih1, List.range_succ_eq_map, List.map_cons, List.map_map]
      congr 1
      apply List.map_congr_left
      intro i _
      simp only [Function.comp]
      congr 1
      omega
    · rw [ih2]
      congr 3
      omega

theorem incrementTimes_fresh {w : Nat} (hw : w = 32 ∨ w = 64) (key : String) (n : Nat)
    (hn : 1 ≤ n) (hmax : (n : Int) ≤ maxInt w) (db : Diskv) (h : db.Read key = none) :
    (incrementTimes key w n db).1 = (List.range n).map (fun (i : Nat) => (i : Int) + 1)
    ∧ (incrementTimes key w n db).2.Read key = some (Itoa (n : Int)) := by
  obtain ⟨n, rfl⟩ : ∃ k, n = k + 1 := ⟨n - 1, by omega⟩
  have hstep := incrementCount_absent hw h .ok .ok
  have hread : (writeValue .ok 1 key (writeValue .ok 0 key db)).Read key
      = some (Itoa ((1 : Nat) : Int)) := by
    rw [Read_writeValue]
    norm_num
  obtain ⟨ih1, ih2⟩ := incrementTimes_holding hw key n 1 _ hread (by
    have : 1 + n = n + 1 := by omega
    rw [this]
    exact hmax)
  simp only [incrementTimes, hstep]
  constructor
  · rw [ih1, List.range_succ_eq_map, List.map_cons, List.map_map]
    congr 1
    apply List.map_congr_left
    intro i _
    simp only [Function.comp]
    push_cast
    omega
  · rw [ih2]
    congr 3
    omega

theorem scenario_bodies {w : Nat} (hw : w = 32 ∨ w = 64) (key : String) (db : Diskv)
    (h : db.Read key = none) :
    (getCount key w .ok db).1 = 0
    ∧ (incrementCount key w .ok .ok (getCount key w .ok db).2).1 = 1
    ∧ (incrementCount key w .ok .ok
        (incrementCount key w .ok .ok (getCount key w .ok db).2).2).1 = 2
    ∧ (getCount key w .ok (incrementCount key w .ok .ok
        (incrementCount key w .ok .ok (getCount key w .ok db).2).2).2).1 = 2 := by
  have hmin : minInt w ≤ 0 := (minInt_le_maxInt w).1
  have hmax : (2 : Int) ≤ maxInt w := by
    unfold maxInt
    rcases hw with rfl | rfl <;> norm_num
  have e1 := getCount_absent h w .ok
  have e2 := incrementCount_holding hw (Read_writeValue 0 key db) hmin (by omega) .ok .ok
  have e3 := incrementCount_holding hw (Read_writeValue (0 + 1) key (writeValue .ok 0 key db))
    (by omega) (by omega) .ok .ok
  have e4 := getCount_holding hw (Read_writeValue (0 + 1 + 1) key
    (writeValue .ok (0 + 1) key (writeValue .ok 0 key db))) (by omega) (by omega) .ok
  rw [e1]
  simp only
  rw [e2]
  simp only
  rw [e3]
  simp only
  rw [e4]
  simp

/-! ## Claims -/

/-- C1. Self-healing on miss: on every store state in which the read of a counter key
fails (the key is absent), `getPositiveCount` / `getNegativeCount` returns 0 whatever
the outcome of its write, and when the write succeeds the store afterwards holds
exactly the bytes `"0"` under that key. -/
theorem self_healing_on_miss (w : Nat) (o : WriteOutcome) (db : Diskv) :
    (db.Read POSITIVE_KEY = none →
      (getPositiveCount w o db).1 = 0
      ∧ (getPositiveCount w .ok db).2.Read POSITIVE_KEY = some ([48] : GoString))
    ∧ (db.Read NEGATIVE_KEY = none →
      (getNegativeCount w o db).1 = 0
      ∧ (getNegativeCount w .ok db).2.Read NEGATIVE_KEY = some ([48] : GoString)) := by
  have h0 : Itoa 0 = ([48] : GoString) := by decide
  constructor
  · intro h
    rw [getPositiveCount_eq, getPositiveCount_eq, getCount_absent h, getCount_absent h]
    exact ⟨rfl, by rw [← h0]; exact Read_writeValue 0 _ _⟩
  · intro h
    rw [getNegativeCount_eq, getNegativeCount_eq, getCount_absent h, getCount_absent h]
    exact ⟨rfl, by rw [← h0]; exact Read_writeValue 0 _ _⟩

/-- C1 at the empty store, 64-bit `int`. -/
theorem self_healing_on_miss_witness :
    ((getPositiveCount 64 .failedAfterOpen emptyDb).1 = 0
      ∧ (getPositiveCount 64 .ok emptyDb).2.Read POSITIVE_KEY = some ([48] : GoString))
    ∧ ((getNegativeCount 64 .failedAfterOpen emptyDb).1 = 0
      ∧ (getNegativeCount 64 .ok emptyDb).2.Read NEGATIVE_KEY = some ([48] : GoString)) :=
  ⟨(self_healing_on_miss 64 .failedAfterOpen emptyDb).1 rfl, (self_healing_on_miss 64 .failedAfterOpen emptyDb).2 rfl⟩

/-- C2. Write/get round trip: for every non-negative `v` in the range of Go's `int`,
`strconv.Atoi(strconv.Itoa(v))` is `v` with no error, and after a successful
`writeValue(v, key)` on any prior store state the store holds `Itoa(v)` under the key
and `getPositiveCount` / `getNegativeCount` returns exactly `v`. -/
theorem write_get_round_trip (w : Nat) (hw : w = 32 ∨ w = 64) (v : Int) (h0 : 0 ≤ v)
    (h1 : v ≤ maxInt w) (o : WriteOutcome) (db : Diskv) :
    Atoi w (Itoa v) = (v, none)
    ∧ (writeValue .ok v POSITIVE_KEY db).Read POSITIVE_KEY = some (Itoa v)
    ∧ (getPositiveCount w o (writeValue .ok v POSITIVE_KEY db)).1 = v
    ∧ (writeValue .ok v NEGATIVE_KEY db).Read NEGATIVE_KEY = some (Itoa v)
    ∧ (getNegativeCount w o (writeValue .ok v NEGATIVE_KEY db)).1 = v := by
  have hmin : minInt w ≤ v := le_trans (minInt_le_maxInt w).1 h0
  refine ⟨Atoi_Itoa hw v hmin h1, Read_writeValue _ _ _, ?_, Read_writeValue _ _ _, ?_⟩
  · rw [getPositiveCount_eq, getCount_holding hw (Read_writeValue _ _ _) hmin h1]
  · rw [getNegativeCount_eq, getCount_holding hw (Read_writeValue _ _ _) hmin h1]

/-- C2 at the largest 64-bit `int`, over an empty store and over a store holding `"x"`. -/
theorem write_get_round_trip_witness :
    Atoi 64 (Itoa 9223372036854775807) = (9223372036854775807, none)
    ∧ (getPositiveCount 64 .ok
        (writeValue .ok 9223372036854775807 POSITIVE_KEY
          (singleDb POSITIVE_KEY [120]))).1 = 9223372036854775807
    ∧ (getNegativeCount 64 .ok
        (writeValue .ok 9223372036854775807 NEGATIVE_KEY emptyDb)).1 = 9223372036854775807 :=
  have h := write_get_round_trip 64 (Or.inr rfl) 9223372036854775807 (by decide) (by decide) .ok
  ⟨(h emptyDb).1, (h (singleDb POSITIVE_KEY [120])).2.2.1, (h emptyDb).2.2.2.2⟩

/-- C3. Sequential increments count: for every `n >= 1` in the range of Go's `int`,
starting from a store in which the key is absent, `n` sequential calls of
`incrementPositiveCount` / `incrementNegativeCount` with all writes succeeding return
`1, 2, ..., n` in this order and leave the base-10 text of `n` under the key. -/
theorem sequential_increments (w : Nat) (hw : w = 32 ∨ w = 64) (n : Nat) (hn : 1 ≤ n)
    (hmax : (n : Int) ≤ maxInt w) (db : Diskv) :
    (db.Read POSITIVE_KEY = none →
      (incrementPositiveTimes w n db).1 = (List.range n).map (fun (i : Nat) => (i : Int) + 1)
      ∧ (incrementPositiveTimes w n db).2.Read POSITIVE_KEY = some (Itoa (n : Int)))
    ∧ (db.Read NEGATIVE_KEY = none →
      (incrementNegativeTimes w n db).1 = (List.range n).map (fun (i : Nat) => (i : Int) + 1)
      ∧ (incrementNegativeTimes w n db).2.Read NEGATIVE_KEY = some (Itoa (n : Int))) := by
  constructor
  · intro h
    rw [incrementPositiveTimes_eq]
    exact incrementTimes_fresh hw _ n hn hmax db h
  · intro h
    rw [incrementNegativeTimes_eq]
    exact incrementTimes_fresh hw _ n hn hmax db h

/-- C3 for three calls on the empty store. -/
theorem sequential_increments_witness :
    ((incrementPositiveTimes 64 3 emptyDb).1 = [1, 2, 3]
      ∧ (incrementPositiveTimes 64 3 emptyDb).2.Read POSITIVE_KEY = some ([51] : GoString))
    ∧ ((incrementNegativeTimes 64 3 emptyDb).1 = [1, 2, 3]
      ∧ (incrementNegativeTimes 64 3 emptyDb).2.Read NEGATIVE_KEY = some ([51] : GoString)) :=
  have h := sequential_increments 64 (Or.inr rfl) 3 (by decide) (by decide) emptyDb
  ⟨h.1 rfl, h.2 rfl⟩

theorem getCount_error_value {w : Nat} (hw : w = 32 ∨ w = 64) {key : String} {db : Diskv}
    {value : GoString} (h : db.Read key = some value) (o : WriteOutcome) :
    ((Atoi w value).2 = some NumError.ErrSyntax → (getCount key w o db).1 = 0)
    ∧ ((Atoi w value).2 = some NumError.ErrRange →
        (getCount key w o db).1 = if value.head? = some 45 then minInt w else maxInt w) := by
  rw [getCount_present h]
  rcases Atoi_cases hw value with h | ⟨hh, h⟩ | ⟨hh, h⟩ | ⟨hh, v, _, _, h⟩ | ⟨hh, v, _, _, h⟩
  · rw [h]
    simp
  all_goals
    rw [h]
    simp [hh]

theorem getCount_nonneg {w : Nat} (hw : w = 32 ∨ w = 64) (key : String) (o : WriteOutcome) (db : Diskv)
    (hsign : ∀ t, db.Read key ≠ some ((45 : Byte) :: t)) :
    0 ≤ (getCount key w o db).1 := by
  cases h : db.Read key with
  | none =>
    rw [getCount_absent h]
  | some value =>
    rw [getCount_present h]
    have hmax := (minInt_le_maxInt w).2
    rcases Atoi_cases hw value with h' | ⟨_, h'⟩ | ⟨hh, h'⟩ | ⟨_, v, h0, _, h'⟩ | ⟨hh, v, _, _, h'⟩
    · rw [h']
    · rw [h']
      exact hmax
    · exfalso
      cases value with
      | nil => simp at hh
      | cons c t =>
        simp only [List.head?_cons, Option.some.injEq] at hh
        subst hh
        exact hsign t h
    · rw [h']
      exact h0
    · exfalso
      cases value with
      | nil => simp at hh
      | cons c t =>
        simp only [List.head?_cons, Option.some.injEq] at hh
        subst hh
        exact hsign t h

theorem incrementCount_spec {w : Nat} (hw : w = 32 ∨ w = 64) (key : String) (o1 o2 o3 : WriteOutcome)
    (db : Diskv) :
    (incrementCount key w o1 o2 db).1 = wrapInt w ((getCount key w o1 db).1 + 1)
    ∧ ((getCount key w o1 db).1 < maxInt w →
        (incrementCount key w o1 o2 db).1 = (getCount key w o1 db).1 + 1
        ∧ (getCount key w o1 db).1 < (incrementCount key w o1 o2 db).1)
    ∧ ((getCount key w o1 db).1 = maxInt w → (incrementCount key w o1 o2 db).1 = minInt w)
    ∧ (o2 = .ok →
        (incrementCount key w o1 o2 db).2.Read key
          = some (Itoa (incrementCount key w o1 o2 db).1)
        ∧ (getCount key w o3 (incrementCount key w o1 o2 db).2).1
          = (incrementCount key w o1 o2 db).1) := by
  have hw1 : 1 ≤ w := by omega
  have hr := getCount_range hw key o1 db
  have hwr := wrapInt_range hw1 ((getCount key w o1 db).1 + 1)
  refine ⟨rfl, ?_, ?_, ?_⟩
  · intro hlt
    have e : wrapInt w ((getCount key w o1 db).1 + 1) = (getCount key w o1 db).1 + 1 :=
      wrapInt_eq_self hw1 (by omega) (by omega)
    have hinc : (incrementCount key w o1 o2 db).1
        = wrapInt w ((getCount key w o1 db).1 + 1) := rfl
    rw [hinc, e]
    exact ⟨rfl, by omega⟩
  · intro heq
    simp only [incrementCount, heq]
    rcases hw with rfl | rfl <;> norm_num [wrapInt, maxInt, minInt]
  · intro hok
    subst hok
    have hread : (incrementCount key w o1 .ok db).2.Read key
        = some (Itoa (incrementCount key w o1 .ok db).1) := by
      simp only [incrementCount]
      exact Read_writeValue _ _ _
    refine ⟨hread, ?_⟩
    rw [getCount_holding hw hread hwr.1 hwr.2]

/-- C4, counterexample. The text `"99999999999999999999"` is a parse failure
(`Atoi` reports a range error) and yet `getPositiveCount` / `getNegativeCount` return
`9223372036854775807`, not 0. -/
theorem out_of_range_text_reads_nonzero :
    (Atoi 64 twentyNines).2 = some NumError.ErrRange
    ∧ (getPositiveCount 64 .ok (singleDb POSITIVE_KEY twentyNines)).1 = 9223372036854775807
    ∧ (getNegativeCount 64 .ok (singleDb NEGATIVE_KEY twentyNines)).1 = 9223372036854775807
    ∧ (getPositiveCount 64 .ok (singleDb POSITIVE_KEY twentyNines)).1 ≠ 0
    ∧ (getNegativeCount 64 .ok (singleDb NEGATIVE_KEY twentyNines)).1 ≠ 0 := by
  decide

/-- C4, amended. For every byte sequence stored under a counter key on which `Atoi`
reports a syntax error (such as `"not-a-number"` and the empty string),
`getPositiveCount` / `getNegativeCount` return 0; on a range error (a digit string
outside the `int` range, such as twenty nines) they return the bound of `int` on the
side of the sign: `minInt` after a leading `'-'`, `maxInt` otherwise. -/
theorem parse_failure_value (w : Nat) (hw : w = 32 ∨ w = 64) (o : WriteOutcome) (db : Diskv)
    (value : GoString) :
    (db.Read POSITIVE_KEY = some value →
      ((Atoi w value).2 = some NumError.ErrSyntax → (getPositiveCount w o db).1 = 0)
      ∧ ((Atoi w value).2 = some NumError.ErrRange →
          (getPositiveCount w o db).1
            = if value.head? = some 45 then minInt w else maxInt w))
    ∧ (db.Read NEGATIVE_KEY = some value →
      ((Atoi w value).2 = some NumError.ErrSyntax → (getNegativeCount w o db).1 = 0)
      ∧ ((Atoi w value).2 = some NumError.ErrRange →
          (getNegativeCount w o db).1
            = if value.head? = some 45 then minInt w else maxInt w))
    ∧ (Atoi w notANumber).2 = some NumError.ErrSyntax
    ∧ (Atoi w []).2 = some NumError.ErrSyntax
    ∧ (Atoi w twentyNines).2 = some NumError.ErrRange := by
  refine ⟨fun h => ?_, fun h => ?_, ?_, ?_, ?_⟩
  · rw [getPositiveCount_eq]
    exact getCount_error_value hw h o
  · rw [getNegativeCount_eq]
    exact getCount_error_value hw h o
  · rcases hw with rfl | rfl <;> decide
  · rcases hw with rfl | rfl <;> decide
  · rcases hw with rfl | rfl <;> decide

/-- C4, amended, at `"not-a-number"` and at twenty nines with and without a leading minus. -/
theorem parse_failure_value_witness :
    (getPositiveCount 64 .ok (singleDb POSITIVE_KEY notANumber)).1 = 0
    ∧ (getNegativeCount 64 .ok (singleDb NEGATIVE_KEY notANumber)).1 = 0
    ∧ (getPositiveCount 32 .ok (singleDb POSITIVE_KEY twentyNines)).1 = 2147483647
    ∧ (getNegativeCount 32 .ok (singleDb NEGATIVE_KEY (45 :: twentyNines))).1 = -2147483648 :=
  ⟨((parse_failure_value 64 (Or.inr rfl) .ok (singleDb POSITIVE_KEY notANumber)
      notANumber).1 rfl).1 (by decide),
    ((parse_failure_value 64 (Or.inr rfl) .ok (singleDb NEGATIVE_KEY notANumber)
      notANumber).2.1 rfl).1 (by decide),
    ((parse_failure_value 32 (Or.inl rfl) .ok (singleDb POSITIVE_KEY twentyNines)
      twentyNines).1 rfl).2 (by decide),
    ((parse_failure_value 32 (Or.inl rfl) .ok (singleDb NEGATIVE_KEY (45 :: twentyNines))
      (45 :: twentyNines)).2.1 rfl).2 (by decide)⟩

/-- C5, counterexample. With the text `"-5"` under the key, `getPositiveCount` /
`getNegativeCount` return `-5`, which is negative. -/
theorem minus_five_reads_negative :
    (getPositiveCount 64 .ok (singleDb POSITIVE_KEY [45, 53])).1 = -5
    ∧ (getNegativeCount 64 .ok (singleDb NEGATIVE_KEY [45, 53])).1 = -5
    ∧ ¬ (0 ≤ (getPositiveCount 64 .ok (singleDb POSITIVE_KEY [45, 53])).1)
    ∧ ¬ (0 ≤ (getNegativeCount 64 .ok (singleDb NEGATIVE_KEY [45, 53])).1) := by
  decide

/-- C5, amended. For every content of the backing store in which the counter key is
absent or holds bytes that do not begin with `'-'`, the value returned by
`getPositiveCount` / `getNegativeCount` is non-negative; for every content whatever
the value lies in the range of Go's `int`. -/
theorem get_nonneg_without_minus (w : Nat) (hw : w = 32 ∨ w = 64) (o : WriteOutcome) (db : Diskv) :
    ((∀ t, db.Read POSITIVE_KEY ≠ some ((45 : Byte) :: t)) → 0 ≤ (getPositiveCount w o db).1)
    ∧ ((∀ t, db.Read NEGATIVE_KEY ≠ some ((45 : Byte) :: t)) → 0 ≤ (getNegativeCount w o db).1)
    ∧ (minInt w ≤ (getPositiveCount w o db).1 ∧ (getPositiveCount w o db).1 ≤ maxInt w)
    ∧ (minInt w ≤ (getNegativeCount w o db).1 ∧ (getNegativeCount w o db).1 ≤ maxInt w) :=
  ⟨getCount_nonneg hw POSITIVE_KEY o db, getCount_nonneg hw NEGATIVE_KEY o db,
    getCount_range hw POSITIVE_KEY o db, getCount_range hw NEGATIVE_KEY o db⟩

/-- C5, amended, at a store holding `"not-a-number"` and at the empty store. -/
theorem get_nonneg_without_minus_witness :
    0 ≤ (getPositiveCount 64 .ok (singleDb POSITIVE_KEY notANumber)).1
    ∧ 0 ≤ (getNegativeCount 64 .ok emptyDb).1 :=
  ⟨(get_nonneg_without_minus 64 (Or.inr rfl) .ok (singleDb POSITIVE_KEY notANumber)).1
      (fun t h => by simp [singleDb, Diskv.Read, notANumber] at h),
    (get_nonneg_without_minus 64 (Or.inr rfl) .ok emptyDb).2.1
      (fun t h => by simp [emptyDb, Diskv.Read] at h)⟩

/-- C6. Random pick is a member and every member is reachable: for every non-empty
`Options` list, `Random` does not panic and returns an element of the list whatever
the random draw, and every element of the list is returned for some index drawn in
`[0, len)`; in particular for the 5-element lists built by `makePositiveOptions` and
`makeNegativeOptions`, `"Whah whah"` being returned at index 0. -/
theorem random_pick_member_and_reachable :
    (∀ o : Options, o ≠ [] →
      (∀ r, ∃ x, o.Random r = some x ∧ x ∈ o)
      ∧ (∀ i (hi : i < o.length), o.Random i = some (o.get ⟨i, hi⟩))
      ∧ (∀ x, x ∈ o → ∃ i, i < o.length ∧ o.Random i = some x))
    ∧ makePositiveOptions.length = 5
    ∧ makeNegativeOptions.length = 5
    ∧ (∀ r, ∃ x, makePositiveOptions.Random r = some x ∧ x ∈ makePositiveOptions)
    ∧ (∀ x, x ∈ makePositiveOptions → ∃ i, i < 5 ∧ makePositiveOptions.Random i = some x)
    ∧ (∀ r, ∃ x, makeNegativeOptions.Random r = some x ∧ x ∈ makeNegativeOptions)
    ∧ (∀ x, x ∈ makeNegativeOptions → ∃ i, i < 5 ∧ makeNegativeOptions.Random i = some x)
    ∧ makeNegativeOptions.Random 0 = some "Whah whah" := by
  have gen : ∀ o : Options, o ≠ [] →
      (∀ r, ∃ x, o.Random r = some x ∧ x ∈ o)
      ∧ (∀ i (hi : i < o.length), o.Random i = some (o.get ⟨i, hi⟩))
      ∧ (∀ x, x ∈ o → ∃ i, i < o.length ∧ o.Random i = some x) := by
    intro o ho
    have hlen : 0 < o.length := List.length_pos.2 ho
    have hne : o.length ≠ 0 := by omega
    have hidx : ∀ i (hi : i < o.length), o.Random i = some (o.get ⟨i, hi⟩) := by
      intro i hi
      simp only [Options.Random, Intn, hne, if_false, Nat.mod_eq_of_lt hi]
      rw [List.getElem?_eq_getElem hi]
      rfl
    refine ⟨?_, hidx, ?_⟩
    · intro r
      have hr : r % o.length < o.length := Nat.mod_lt _ hlen
      refine ⟨o.get ⟨r % o.length, hr⟩, ?_, List.get_mem _ _ _⟩
      simp only [Options.Random, Intn, hne, if_false]
      rw [List.getElem?_eq_getElem hr]
      rfl
    · intro x hx
      obtain ⟨n, hn⟩ := List.get_of_mem hx
      exact ⟨n.val, n.isLt, by rw [hidx n.val n.isLt]; exact congrArg some hn⟩
  have hp : makePositiveOptions ≠ [] := by decide
  have hn : makeNegativeOptions ≠ [] := by decide
  exact ⟨gen, rfl, rfl, (gen _ hp).1, (gen _ hp).2.2, (gen _ hn).1, (gen _ hn).2.2, rfl⟩

/-- C6 at the draw 7 on the negative list and at a phrase of the positive list. -/
theorem random_pick_member_and_reachable_witness :
    (∃ x, makeNegativeOptions.Random 7 = some x ∧ x ∈ makeNegativeOptions)
    ∧ (∃ i, i < makePositiveOptions.length
        ∧ makePositiveOptions.Random i = some "Joy to the world!") :=
  ⟨(random_pick_member_and_reachable.1 makeNegativeOptions (by decide)).1 7,
    (random_pick_member_and_reachable.1 makePositiveOptions (by decide)).2.2
      "Joy to the world!" (by decide)⟩

/-- C7, counterexample. With `"9223372036854775807"` under the key (64-bit `int`),
`getPositiveCount` returns the largest `int` and `incrementPositiveCount` returns the
smallest one, which is not strictly greater; likewise for the negative counter. -/
theorem increment_wraps_at_maxInt :
    (getPositiveCount 64 .ok (singleDb POSITIVE_KEY maxInt64Text)).1 = 9223372036854775807
    ∧ (incrementPositiveCount 64 .ok .ok (singleDb POSITIVE_KEY maxInt64Text)).1
        = -9223372036854775808
    ∧ ¬ ((getPositiveCount 64 .ok (singleDb POSITIVE_KEY maxInt64Text)).1
        < (incrementPositiveCount 64 .ok .ok (singleDb POSITIVE_KEY maxInt64Text)).1)
    ∧ (getNegativeCount 64 .ok (singleDb NEGATIVE_KEY maxInt64Text)).1 = 9223372036854775807
    ∧ (incrementNegativeCount 64 .ok .ok (singleDb NEGATIVE_KEY maxInt64Text)).1
        = -9223372036854775808
    ∧ ¬ ((getNegativeCount 64 .ok (singleDb NEGATIVE_KEY maxInt64Text)).1
        < (incrementNegativeCount 64 .ok .ok (singleDb NEGATIVE_KEY maxInt64Text)).1) := by
  decide

/-- C7, amended. For every backing-store state and each counter key, increment returns
the value `get` would return plus one computed in Go's `int` (wrapping); whenever that
value is below the largest `int` the result is exactly `get + 1` and strictly greater,
and at the largest `int` it is the smallest `int`; when the write succeeds the store
afterwards holds the base-10 text of the returned value and a following `get` returns
it. -/
theorem increment_get_plus_one (w : Nat) (hw : w = 32 ∨ w = 64) (o1 o2 o3 : WriteOutcome)
    (db : Diskv) :
    ((incrementPositiveCount w o1 o2 db).1 = wrapInt w ((getPositiveCount w o1 db).1 + 1)
      ∧ ((getPositiveCount w o1 db).1 < maxInt w →
          (incrementPositiveCount w o1 o2 db).1 = (getPositiveCount w o1 db).1 + 1
          ∧ (getPositiveCount w o1 db).1 < (incrementPositiveCount w o1 o2 db).1)
      ∧ ((getPositiveCount w o1 db).1 = maxInt w →
          (incrementPositiveCount w o1 o2 db).1 = minInt w)
      ∧ (o2 = .ok →
          (incrementPositiveCount w o1 o2 db).2.Read POSITIVE_KEY
            = some (Itoa (incrementPositiveCount w o1 o2 db).1)
          ∧ (getPositiveCount w o3 (incrementPositiveCount w o1 o2 db).2).1
            = (incrementPositiveCount w o1 o2 db).1))
    ∧ ((incrementNegativeCount w o1 o2 db).1 = wrapInt w ((getNegativeCount w o1 db).1 + 1)
      ∧ ((getNegativeCount w o1 db).1 < maxInt w →
          (incrementNegativeCount w o1 o2 db).1 = (getNegativeCount w o1 db).1 + 1
          ∧ (getNegativeCount w o1 db).1 < (incrementNegativeCount w o1 o2 db).1)
      ∧ ((getNegativeCount w o1 db).1 = maxInt w →
          (incrementNegativeCount w o1 o2 db).1 = minInt w)
      ∧ (o2 = .ok →
          (incrementNegativeCount w o1 o2 db).2.Read NEGATIVE_KEY
            = some (Itoa (incrementNegativeCount w o1 o2 db).1)
          ∧ (getNegativeCount w o3 (incrementNegativeCount w o1 o2 db).2).1
            = (incrementNegativeCount w o1 o2 db).1)) :=
  ⟨incrementCount_spec hw POSITIVE_KEY o1 o2 o3 db,
    incrementCount_spec hw NEGATIVE_KEY o1 o2 o3 db⟩

/-- C7, amended, at a store holding `"41"`. -/
theorem increment_get_plus_one_witness :
    ((incrementPositiveCount 64 .ok .ok (singleDb POSITIVE_KEY [52, 49])).1 = 41 + 1
      ∧ (getPositiveCount 64 .ok (singleDb POSITIVE_KEY [52, 49])).1
        < (incrementPositiveCount 64 .ok .ok (singleDb POSITIVE_KEY [52, 49])).1)
    ∧ ((incrementNegativeCount 64 .ok .ok (singleDb NEGATIVE_KEY [52, 49])).2.Read NEGATIVE_KEY
        = some (Itoa (incrementNegativeCount 64 .ok .ok (singleDb NEGATIVE_KEY [52, 49])).1)
      ∧ (getNegativeCount 64 .failedAfterOpen
          (incrementNegativeCount 64 .ok .ok (singleDb NEGATIVE_KEY [52, 49])).2).1
        = (incrementNegativeCount 64 .ok .ok (singleDb NEGATIVE_KEY [52, 49])).1) :=
  ⟨(increment_get_plus_one 64 (Or.inr rfl) .ok .ok .failedAfterOpen
      (singleDb POSITIVE_KEY [52, 49])).1.2.1 (by decide),
    (increment_get_plus_one 64 (Or.inr rfl) .ok .ok .failedAfterOpen
      (singleDb NEGATIVE_KEY [52, 49])).2.2.2.2 rfl⟩

/-- C8. End-to-end counter scenario: from a store in which the key is absent and with
all writes succeeding, the response bodies of `getPositive, trackPositive,
trackPositive, getPositive` are exactly `"0"`, `"1"`, `"2"`, `"2"`, and likewise for
`getNegative` / `trackNegative` on the negative key. -/
theorem end_to_end_scenario (w : Nat) (hw : w = 32 ∨ w = 64) (db : Diskv) :
    (db.Read POSITIVE_KEY = none →
      positiveScenario w db = [([48] : GoString), [49], [50], [50]])
    ∧ (db.Read NEGATIVE_KEY = none →
      negativeScenario w db = [([48] : GoString), [49], [50], [50]]) := by
  constructor
  · intro h
    obtain ⟨b1, b2, b3, b4⟩ := scenario_bodies hw POSITIVE_KEY db h
    simp only [positiveScenario, getPositive, trackPositive, getPositiveCount_eq,
      incrementPositiveCount_eq]
    rw [b1, b2, b3, b4]
    decide
  · intro h
    obtain ⟨b1, b2, b3, b4⟩ := scenario_bodies hw NEGATIVE_KEY db h
    simp only [negativeScenario, getNegative, trackNegative, getNegativeCount_eq,
      incrementNegativeCount_eq]
    rw [b1, b2, b3, b4]
    decide

/-- C8 at the empty store and at a store holding only the other key. -/
theorem end_to_end_scenario_witness :
    positiveScenario 64 emptyDb = [([48] : GoString), [49], [50], [50]]
    ∧ negativeScenario 32 (singleDb POSITIVE_KEY [55]) = [([48] : GoString), [49], [50], [50]] :=
  ⟨(end_to_end_scenario 64 (Or.inr rfl) emptyDb).1 rfl,
    (end_to_end_scenario 32 (Or.inl rfl) (singleDb POSITIVE_KEY [55])).2 (by decide)⟩

/-- C10, counterexample. With `"not-a-number"` under the key, which `Atoi` rejects, a
call to `getPositiveCount` / `getNegativeCount` with writes succeeding leaves those
bytes under the key: the store does not hold `"0"` afterwards. -/
theorem corrupt_value_not_healed :
    (Atoi 64 notANumber).2 = some NumError.ErrSyntax
    ∧ (getPositiveCount 64 .ok (singleDb POSITIVE_KEY notANumber)).2.Read POSITIVE_KEY
        = some notANumber
    ∧ (getPositiveCount 64 .ok (singleDb POSITIVE_KEY notANumber)).2.Read POSITIVE_KEY
        ≠ some ([48] : GoString)
    ∧ (getNegativeCount 64 .ok (singleDb NEGATIVE_KEY notANumber)).2.Read NEGATIVE_KEY
        = some notANumber
    ∧ (getNegativeCount 64 .ok (singleDb NEGATIVE_KEY notANumber)).2.Read NEGATIVE_KEY
        ≠ some ([48] : GoString) := by
  decide

/-- C10, amended. For every store state in which a counter key is present, a call to
`getPositiveCount` / `getNegativeCount` writes nothing: the store afterwards is the
store before, still holding the same bytes under that key, whatever the outcome a
write would have had; when the bytes are a syntax error for `Atoi` the value returned
is 0. -/
theorem corrupt_value_left_in_place (w : Nat) (hw : w = 32 ∨ w = 64) (o : WriteOutcome) (db : Diskv)
    (value : GoString) :
    (db.Read POSITIVE_KEY = some value →
      (getPositiveCount w o db).2 = db
      ∧ (getPositiveCount w o db).2.Read POSITIVE_KEY = some value
      ∧ ((Atoi w value).2 = some NumError.ErrSyntax → (getPositiveCount w o db).1 = 0))
    ∧ (db.Read NEGATIVE_KEY = some value →
      (getNegativeCount w o db).2 = db
      ∧ (getNegativeCount w o db).2.Read NEGATIVE_KEY = some value
      ∧ ((Atoi w value).2 = some NumError.ErrSyntax → (getNegativeCount w o db).1 = 0)) := by
  constructor
  · intro h
    have hv := (getCount_error_value hw h o).1
    rw [getPositiveCount_eq]
    rw [getCount_present h] at hv ⊢
    exact ⟨rfl, h, hv⟩
  · intro h
    have hv := (getCount_error_value hw h o).1
    rw [getNegativeCount_eq]
    rw [getCount_present h] at hv ⊢
    exact ⟨rfl, h, hv⟩

/-- C10, amended, at a store holding `"x1"`, 32-bit `int`. -/
theorem corrupt_value_left_in_place_witness :
    ((getPositiveCount 32 .ok (singleDb POSITIVE_KEY [120, 49])).2
        = singleDb POSITIVE_KEY [120, 49]
      ∧ (getPositiveCount 32 .ok (singleDb POSITIVE_KEY [120, 49])).2.Read POSITIVE_KEY
        = some [120, 49])
    ∧ (getNegativeCount 32 .ok (singleDb NEGATIVE_KEY [120, 49])).1 = 0 :=
  ⟨⟨((corrupt_value_left_in_place 32 (Or.inl rfl) .ok (singleDb POSITIVE_KEY [120, 49])
        [120, 49]).1 rfl).1,
      ((corrupt_value_left_in_place 32 (Or.inl rfl) .ok (singleDb POSITIVE_KEY [120, 49])
        [120, 49]).1 rfl).2.1⟩,
    ((corrupt_value_left_in_place 32 (Or.inl rfl) .ok (singleDb NEGATIVE_KEY [120, 49])
      [120, 49]).2 rfl).2.2 (by decide)⟩

end PositivityTracker
